import Mathlib

/-!
# Verification of the nativestart launcher core

Shallow embedding of the launcher's installation reconciliation engine:
the descriptor model (`src/descriptor.rs`), the validator pipeline
(`src/validation/*.rs`), the installation store with its trash/restore
protocol and orphan sweep (`src/installation_manager.rs`), the download
progress accounting (`src/download_manager.rs`, `src/ui/mod.rs`), and the
shared-lock acquisition (`src/installation_manager.rs`).

Modelling conventions:
* Paths are lists of components (`List String`); `PathBuf` equality and
  `Path::starts_with` are component-wise in Rust, which `List` equality and
  `List.isPrefixOf` mirror.  All paths are taken relative to the
  installation root, which is a common prefix of every compared path.
* The filesystem is a finite list of `(path, data)` pairs for the regular
  files and symlinks it holds; directories exist implicitly as the proper
  prefixes of entry paths.  I/O failures other than the ones the code
  branches on are outside the model.
* The cryptographic digest and the Ed25519 verifier are abstract function
  parameters: the code treats them as black boxes, and every claim is about
  the launcher's use of them, not about the primitives themselves.
-/

/-! ## String helpers mirroring the Rust standard library -/

/-- `str::contains` for plain substring patterns: leftmost scan. -/
def strContainsChars (pat : List Char) : List Char → Bool
  | [] => pat.isEmpty
  | c :: cs => pat.isPrefixOf (c :: cs) || strContainsChars pat cs

/-- `str::contains(pat)` on strings. -/
def strContains (s pat : String) : Bool :=
  strContainsChars pat.toList s.toList

/-- `str::replace(pat, rep)`: replaces every non-overlapping occurrence of
`pat`, scanning left to right.  An empty pattern is left untouched.  The
fuel argument only bounds the scan (every step consumes at least one
character), so initializing it to the string length makes the exhaustion
arm unreachable. -/
def replaceAllChars (pat rep : List Char) : Nat → List Char → List Char
  | _, [] => []
  | 0, s => s
  | fuel + 1, c :: cs =>
    if pat ≠ [] ∧ pat.isPrefixOf (c :: cs) = true then
      rep ++ replaceAllChars pat rep fuel ((c :: cs).drop pat.length)
    else
      c :: replaceAllChars pat rep fuel cs

/-- `String::replace(pat, rep)` (all occurrences). -/
def strReplaceAll (s pat rep : String) : String :=
  String.mk (replaceAllChars pat.toList rep.toList s.toList.length s.toList)

/-- Modelled from the spec: removal of only the *first* textual occurrence
of `pat`, the canonicalization the spec describes for signature
verification.  Used to compare against the code's `String::replace`. -/
def removeFirstChars (pat : List Char) : List Char → List Char
  | [] => []
  | c :: cs =>
    if pat ≠ [] ∧ pat.isPrefixOf (c :: cs) = true then
      (c :: cs).drop pat.length
    else
      c :: removeFirstChars pat cs

/-- Modelled from the spec: first-occurrence excision on strings. -/
def removeFirstOccurrence (s pat : String) : String :=
  String.mk (removeFirstChars pat.toList s.toList)

/-- Value of one hexadecimal digit, as accepted by `hex::decode`. -/
def hexDigit (c : Char) : Option Nat :=
  if '0' ≤ c ∧ c ≤ '9' then some (c.toNat - '0'.toNat)
  else if 'a' ≤ c ∧ c ≤ 'f' then some (c.toNat - 'a'.toNat + 10)
  else if 'A' ≤ c ∧ c ≤ 'F' then some (c.toNat - 'A'.toNat + 10)
  else none

/-- `hex::decode` on a character list: bytes from pairs of hex digits. -/
def hexDecodeChars : List Char → Option (List Nat)
  | [] => some []
  | [_] => none
  | c1 :: c2 :: rest => do
    let h ← hexDigit c1
    let l ← hexDigit c2
    let tail ← hexDecodeChars rest
    pure ((h * 16 + l) :: tail)

/-- `hex::decode` on strings. -/
def hexDecode (s : String) : Option (List Nat) :=
  hexDecodeChars s.toList

/-! ## Path components -/

/-- A path, as its list of components relative to the installation root. -/
abbrev FsPath := List String

/-- Splitting a character list at `/` separators. -/
def splitSlashAux : List Char → List Char → List String
  | cur, [] => [String.mk cur.reverse]
  | cur, c :: cs =>
    if c = '/' then String.mk cur.reverse :: splitSlashAux [] cs
    else splitSlashAux (c :: cur) cs

/-- Components of a relative path string: `Path::components` collapses
repeated separators and ignores a trailing separator, so an archive path
`"lib/"` and the directory entry `"lib"` compare equal. -/
def pathComponents (s : String) : FsPath :=
  (splitSlashAux [] s.toList).filter (fun c => c ≠ "")

/-! ## Error taxonomy (`src/errors.rs`) and outcomes -/

/-- The `error_chain!` kinds of `src/errors.rs`, plus the generic message
kind `Msg` that `bail!` produces and the `Io` passthrough. -/
inductive ErrKind where
  | InvalidJSON (msg : String)
  | SignatureError (msg : String)
  | DownloadError (msg : String)
  | StorageError (msg : String)
  | ValidationError (msg : String)
  | SplashError (msg : String)
  | JavaExecutionError (msg : String)
  | Msg (msg : String)
  | Io (msg : String)
deriving DecidableEq

/-- Result of a Rust function call, distinguishing a value returned
through `Result::Ok`, an error returned through `Result::Err`, and a
thread panic (`panic!` or `unwrap` on a failed value), which does not
return at all. -/
inductive Outcome (α : Type) where
  | ok (a : α)
  | err (e : ErrKind)
  | panicked (msg : String)
deriving DecidableEq

/-- Whether an outcome is an `Err` return. -/
def Outcome.isErr {α : Type} : Outcome α → Bool
  | .err _ => true
  | _ => false

/-- Decidable equality for `Except` results, used to evaluate the model
on concrete inputs. -/
instance exceptDecEq {ε α : Type} [DecidableEq ε] [DecidableEq α] :
    DecidableEq (Except ε α)
  | .ok a, .ok b => decidable_of_iff (a = b) (by simp)
  | .ok _, .error _ => isFalse (by simp)
  | .error _, .ok _ => isFalse (by simp)
  | .error e, .error f => decidable_of_iff (e = f) (by simp)

/-! ## Descriptor model (`src/descriptor.rs`) -/

/-- `JvmParameters` of `src/descriptor.rs`. -/
structure JvmParameters where
  jvm_path : String
  jvm_library : String
  main_class : String
  options : List String
deriving DecidableEq

/-- `ApplicationArtifact` of `src/descriptor.rs`. -/
structure ApplicationArtifact where
  url : String
  size : Nat
  download_size : Option Nat
  checksum : String
  path : String
deriving DecidableEq

/-- `ApplicationArtifact::is_archive`: the path ends in `/` (for the
one-character suffix this is exactly: the last character is `/`). -/
def ApplicationArtifact.is_archive (a : ApplicationArtifact) : Bool :=
  a.path.toList.getLast? = some '/'

/-- The artifact path as components relative to the installation root:
`InstallationManager::path` joins it onto the root directory. -/
def ApplicationArtifact.fsPath (a : ApplicationArtifact) : FsPath :=
  pathComponents a.path

/-- `artifact.download_size.unwrap_or(artifact.size)`, the byte count used
for progress accounting in `download_and_store`. -/
def ApplicationArtifact.declaredSize (a : ApplicationArtifact) : Nat :=
  a.download_size.getD a.size

/-- `ApplicationDescriptor` of `src/descriptor.rs`. -/
structure ApplicationDescriptor where
  name : String
  version : String
  signature : Option String
  splash : ApplicationArtifact
  jvm_params : JvmParameters
  artifacts : List ApplicationArtifact
  unmanaged_paths : Option (List String)
deriving DecidableEq

/-- `ApplicationDescriptor::all_artifacts`: the artifacts list with the
splash artifact appended. -/
def ApplicationDescriptor.all_artifacts (d : ApplicationDescriptor) :
    List ApplicationArtifact :=
  d.artifacts ++ [d.splash]

/-- An abstract Ed25519 verifier: public key, message bytes (kept as the
string the code passes to `verify`), decoded signature bytes. -/
abbrev Ed25519Verifier := List Nat → String → List Nat → Bool

/-- The panic message of the `..` path check in
`ApplicationDescriptor::parse`. -/
def securityPanicMsg : String :=
  "Descriptor defines storage location outside application directory. Please inform author about this security incident!"

/-- `ApplicationDescriptor::verify` (the `check-signature` build):
normalizes the content with `String::replace(signature, "")`, hex-decodes
the signature (`unwrap`: invalid hex panics), and consults the Ed25519
verifier on the normalized bytes. -/
def ApplicationDescriptor.verifySig (ed : Ed25519Verifier) (content : String)
    (signature : Option String) (publicKey : List Nat) : Outcome Unit :=
  match signature with
  | none => .err (.SignatureError "Signature is missing")
  | some sig =>
    let normalizedContent := strReplaceAll content sig ""
    match hexDecode sig with
    | none => .panicked "called unwrap on an Err value: hex decode failed"
    | some sigBytes =>
      if ed publicKey normalizedContent sigBytes then .ok ()
      else .err (.SignatureError "signature verification failed")

/-- `ApplicationDescriptor::parse` after a successful JSON
deserialization into `desc`: first the `..` path-safety loop (which
panics, it does not return), then the signature matrix. -/
def ApplicationDescriptor.parseChecked (ed : Ed25519Verifier)
    (content : String) (desc : ApplicationDescriptor)
    (publicKey : Option (List Nat)) : Outcome ApplicationDescriptor :=
  if desc.all_artifacts.any (fun a => strContains a.path "..") then
    .panicked securityPanicMsg
  else
    match publicKey with
    | some pk =>
      match ApplicationDescriptor.verifySig ed content desc.signature pk with
      | .ok _ => .ok desc
      | .err e => .err e
      | .panicked m => .panicked m
    | none =>
      if desc.signature.isSome then
        .err (.SignatureError "Signature is present but not supported by launcher")
      else
        .ok desc

/-! ## Filesystem model -/

/-- Data held at a filesystem entry: a regular file's contents, or a
symbolic link's target string. -/
inductive FileData where
  | fileData (content : String)
  | symlink (target : String)
deriving DecidableEq

/-- A filesystem under the installation root: the finite list of its
regular-file and symlink entries, keyed by component path.  Directories
exist implicitly as proper path-prefix positions. -/
abbrev Fs := List (FsPath × FileData)

instance : Inhabited FileData := ⟨.fileData ""⟩

/-- `path.exists()`: some entry lies at or below `p`. -/
def existsPath (fs : Fs) (p : FsPath) : Bool :=
  fs.any (fun e => p.isPrefixOf e.1)

/-- `path.is_file()`: an entry lies exactly at `p` (a symlink to a file is
also reported as a file; links are modelled by their entry). -/
def isFileAt (fs : Fs) (p : FsPath) : Bool :=
  fs.any (fun e => e.1 = p)

/-- The entry exactly at `p`, if any. -/
def entryAt (fs : Fs) (p : FsPath) : Option FileData :=
  (fs.find? (fun e => e.1 = p)).map (·.2)

/-- `fs::remove_file(p)`. -/
def removeFileFs (fs : Fs) (p : FsPath) : Fs :=
  fs.filter (fun e => ¬ e.1 = p)

/-- `fs::remove_dir_all(p)`: drops the whole subtree. -/
def removeDirAllFs (fs : Fs) (p : FsPath) : Fs :=
  fs.filter (fun e => ¬ p.isPrefixOf e.1 = true)

/-- `fs::rename(a, b)`: re-roots every entry under `a` to lie under `b`. -/
def renameFs (fs : Fs) (a b : FsPath) : Fs :=
  fs.map (fun e => if a.isPrefixOf e.1 then (b ++ e.1.drop a.length, e.2) else e)

/-- The reserved hidden trash directory `.launcher.backup`. -/
def trashDir : FsPath := [".launcher.backup"]

/-- A well-formed filesystem: no entry path is a proper prefix of another
(a path cannot be both a file and a directory). -/
def WFfs (fs : Fs) : Prop :=
  ∀ e1 ∈ fs, ∀ e2 ∈ fs, e1.1 <+: e2.1 → e1.1 = e2.1

namespace InstallationManager

/-- The deletion of an existing entry as the trash protocol performs
it: `remove_file` for a file, `remove_dir_all` otherwise. -/
def deleteEntry (fs : Fs) (p : FsPath) : Fs :=
  if isFileAt fs p then removeFileFs fs p else removeDirAllFs fs p

/-- `InstallationManager::move_to_trash`: if a live entry exists at `rel`,
delete any prior trash entry, then rename the live entry into
`.launcher.backup/<rel>`.  The rename fails (an `Err` the code surfaces as
`StorageError`) when the destination lies inside the source, which is the
only failure the model retains. -/
def move_to_trash (fs : Fs) (rel : FsPath) : Except ErrKind Fs :=
  if existsPath fs rel then
    let backup := trashDir ++ rel
    let fs1 := if existsPath fs backup then deleteEntry fs backup else fs
    if rel.isPrefixOf backup then
      .error (.StorageError "Could not backup")
    else
      .ok (renameFs fs1 rel backup)
  else
    .ok fs

/-- `InstallationManager::restore_trash`: if `.launcher.backup/<rel>`
exists, delete any live entry at `rel` and rename the trash entry back.
The rename's destination is strictly shorter than its source, so the
nesting failure of `move_to_trash` cannot occur; remaining I/O failures
are outside the model. -/
def restore_trash (fs : Fs) (rel : FsPath) : Fs :=
  let backup := trashDir ++ rel
  if existsPath fs backup then
    let fs1 := if existsPath fs rel then deleteEntry fs rel else fs
    renameFs fs1 backup rel
  else fs

end InstallationManager

/-! ## Validator pipeline (`src/validation/*.rs`)

The digest function (SHA-256, or BLAKE3 under the `checksum-blake3`
feature) is an abstract parameter `hashFn : String → String` from byte
streams to hex digests; a streaming hasher is modelled by accumulating the
fed bytes and digesting once at finalization. -/

/-- Comparison of strings as `Ord` on Rust strings: lexicographic on the
scalar values. -/
def charListLt : List Char → List Char → Bool
  | [], [] => false
  | [], _ :: _ => true
  | _ :: _, [] => false
  | a :: as, b :: bs =>
    if a.toNat < b.toNat then true
    else if b.toNat < a.toNat then false
    else charListLt as bs

/-- `a < b` on strings (the `BTreeMap` key order). -/
def strLtB (a b : String) : Bool :=
  charListLt a.toList b.toList

/-- `BTreeMap::insert` on an ascending association list. -/
def insertSorted (k v : String) : List (String × String) → List (String × String)
  | [] => [(k, v)]
  | e :: rest =>
    if strLtB k e.1 then (k, v) :: e :: rest
    else if k = e.1 then (k, v) :: rest
    else e :: insertSorted k v rest

/-- Serialization of the ordered `(path, hash)` pairs exactly as
`ChecksumApplicationArtifactValidator::is_valid` feeds them to the final
hasher: `path TAB hash LF` for each entry in ascending key order. -/
def serializePairs (l : List (String × String)) : String :=
  l.foldl (fun acc e => acc ++ e.1 ++ "\t" ++ e.2 ++ "\n") ""

/-- `checksum::hash(file_path)`: the digest of the link target string for
a symlink, the digest of the file contents otherwise. -/
def entryDigest (hashFn : String → String) : FileData → String
  | .symlink target => hashFn target
  | .fileData content => hashFn content

/-- The archive branch of `ChecksumApplicationArtifactValidator::is_valid`
applied to the walked `(relative path, data)` entries: per-entry digests
are inserted into a `BTreeMap` keyed by the relative path, and the
serialized map is digested by a fresh hasher. -/
def archiveHashOfWalk (hashFn : String → String)
    (walk : List (String × FileData)) : String :=
  hashFn (serializePairs
    (walk.foldl (fun m e => insertSorted e.1 (entryDigest hashFn e.2) m) []))

/-- The non-directory entries found by walking `fs` under `p`, paired with
their forward-slash relative path (`strip_prefix` + separator fix-up). -/
def walkRelative (fs : Fs) (p : FsPath) : List (String × FileData) :=
  fs.filterMap (fun e =>
    if p.isPrefixOf e.1 then some (String.intercalate "/" (e.1.drop p.length), e.2)
    else none)

/-- `ChecksumApplicationArtifactValidator::is_valid`. -/
def checksumIsValid (hashFn : String → String) (a : ApplicationArtifact)
    (fs : Fs) (p : FsPath) : Bool :=
  if a.is_archive then
    archiveHashOfWalk hashFn (walkRelative fs p) = a.checksum
  else
    match entryAt fs p with
    | some d => entryDigest hashFn d = a.checksum
    | none => false

/-- `ExistenceApplicationArtifactValidator::is_valid`. -/
def existenceIsValid (fs : Fs) (p : FsPath) : Bool :=
  existsPath fs p

/-- Recursive sum of regular-file lengths under `p` (symlinks and
directories excluded), as `SizeApplicationArtifactValidator` computes with
`WalkDir`.  File lengths are the byte lengths of the modelled contents. -/
def sizeSum (fs : Fs) (p : FsPath) : Nat :=
  (fs.filterMap (fun e =>
    match e.2 with
    | .fileData content => if p.isPrefixOf e.1 then some content.length else none
    | .symlink _ => none)).sum

/-- `SizeApplicationArtifactValidator::is_valid`; a missing file's
metadata error is mapped to length 0 by `unwrap_or(0)`. -/
def sizeIsValid (a : ApplicationArtifact) (fs : Fs) (p : FsPath) : Bool :=
  if a.is_archive then
    sizeSum fs p = a.size
  else
    (match entryAt fs p with
     | some (.fileData content) => content.length
     | _ => 0) = a.size

/-- `validation::validate`: the existence → size → checksum short-circuit
chain. -/
def validate (hashFn : String → String) (a : ApplicationArtifact)
    (fs : Fs) (p : FsPath) : Bool :=
  existenceIsValid fs p && sizeIsValid a fs p && checksumIsValid hashFn a fs p

/-! ## Installation store (`src/installation_manager.rs`) -/

mutual
/-- A directory entry as observed by `fs::read_dir`: a plain file or a
subdirectory with its own entries. -/
inductive DirEntry where
  | fileEntry (name : String)
  | dirEntry (name : String) (children : DirList)
deriving DecidableEq
/-- The entries of one directory, used to model the orphan sweep's
traversal of the installation root. -/
inductive DirList where
  | nil
  | cons (e : DirEntry) (rest : DirList)
deriving DecidableEq
end

/-- The name of a directory entry. -/
def DirEntry.name : DirEntry → String
  | .fileEntry n => n
  | .dirEntry n _ => n

/-- The entry names of a directory listing. -/
def DirList.names : DirList → List String
  | .nil => []
  | .cons e rest => e.name :: rest.names

/-- Building a directory listing from a list of entries. -/
def DirList.ofList : List DirEntry → DirList
  | [] => .nil
  | e :: rest => .cons e (DirList.ofList rest)

namespace InstallationManager

/-- The protected path list built by `delete_unused_files`, in push
order: artifact paths, the descriptor file, the log file, the splash
path, then the unmanaged paths. -/
def managedPaths (d : ApplicationDescriptor) : List FsPath :=
  d.artifacts.map (fun a => a.fsPath)
    ++ [pathComponents "app.json", pathComponents "launcher.log"]
    ++ [d.splash.fsPath]
    ++ (d.unmanaged_paths.getD []).map pathComponents

/-- Outcome of the matching loop of `get_paths_to_delete` for one
directory entry. -/
inductive SweepMatch where
  | exactM
  | underM
  | noneM
deriving DecidableEq

/-- The matching loop of `get_paths_to_delete`: for each protected path
in list order, first `eq`, then `starts_with`; the first protected path
that matches in either way decides and breaks the loop. -/
def matchFirst (managed : List FsPath) (e : FsPath) : SweepMatch :=
  match managed with
  | [] => .noneM
  | p :: rest =>
    if p = e then .exactM
    else if e.isPrefixOf p then .underM
    else matchFirst rest e

mutual
/-- The per-entry decision of `get_paths_to_delete`: an entry with no
match is collected for deletion, an exact match is kept, and a
`starts_with` match recurses into the entry — `fs::read_dir` on a file
entry fails with a `StorageError`. -/
def sweepEntry (managed : List FsPath) (cur : FsPath) :
    DirEntry → Except ErrKind (List FsPath)
  | .fileEntry n =>
    match matchFirst managed (cur ++ [n]) with
    | .noneM => .ok [cur ++ [n]]
    | .exactM => .ok []
    | .underM => .error (.StorageError "Could not read directory")
  | .dirEntry n children =>
    match matchFirst managed (cur ++ [n]) with
    | .noneM => .ok [cur ++ [n]]
    | .exactM => .ok []
    | .underM => get_paths_to_delete managed (cur ++ [n]) children
/-- `InstallationManager::get_paths_to_delete` over the entries of one
directory at path `cur`, concatenating the per-entry collections in
`read_dir` order and propagating the first error. -/
def get_paths_to_delete (managed : List FsPath) (cur : FsPath) :
    DirList → Except ErrKind (List FsPath)
  | .nil => .ok []
  | .cons e rest =>
    match sweepEntry managed cur e with
    | .error er => .error er
    | .ok hs =>
      match get_paths_to_delete managed cur rest with
      | .error er => .error er
      | .ok ts => .ok (hs ++ ts)
end

mutual
/-- Modelled from the spec: the per-entry sweep rule as §4.3 states it —
keep on an exact match against *any* managed path, otherwise descend if
*any* managed path begins with the entry plus `/`, otherwise delete —
with exact matches taking precedence over partial ones regardless of
list order. -/
def specSweepEntry (managed : List FsPath) (cur : FsPath) :
    DirEntry → Except ErrKind (List FsPath)
  | .fileEntry n =>
    if managed.any (fun p => p = cur ++ [n]) then .ok []
    else if managed.any (fun p => (cur ++ [n]).isPrefixOf p) then
      .error (.StorageError "Could not read directory")
    else .ok [cur ++ [n]]
  | .dirEntry n children =>
    if managed.any (fun p => p = cur ++ [n]) then .ok []
    else if managed.any (fun p => (cur ++ [n]).isPrefixOf p) then
      specSweepPathsToDelete managed (cur ++ [n]) children
    else .ok [cur ++ [n]]
/-- Modelled from the spec: the sweep under the exact-match-first
per-entry rule. -/
def specSweepPathsToDelete (managed : List FsPath) (cur : FsPath) :
    DirList → Except ErrKind (List FsPath)
  | .nil => .ok []
  | .cons e rest =>
    match specSweepEntry managed cur e with
    | .error er => .error er
    | .ok hs =>
      match specSweepPathsToDelete managed cur rest with
      | .error er => .error er
      | .ok ts => .ok (hs ++ ts)
end

mutual
/-- The regular files contributed by one directory entry, as full paths
from the root. -/
def filesOfEntry (cur : FsPath) : DirEntry → List FsPath
  | .fileEntry n => [cur ++ [n]]
  | .dirEntry n children => filesOf (cur ++ [n]) children
/-- The regular files of a directory tree, as full paths from the root. -/
def filesOf (cur : FsPath) : DirList → List FsPath
  | .nil => []
  | .cons e rest => filesOfEntry cur e ++ filesOf cur rest
end

/-- `InstallationManager::get_files_to_download`: one pass over the
artifacts, restoring the trash entry of each and collecting those that
fail `validate`; returns the filesystem after all restores together with
the selected artifacts. -/
def get_files_to_download (hashFn : String → String) :
    Fs → List ApplicationArtifact → Fs × List ApplicationArtifact
  | fs, [] => (fs, [])
  | fs, a :: rest =>
    let fs1 := restore_trash fs a.fsPath
    let r := get_files_to_download hashFn fs1 rest
    (r.1, if validate hashFn a fs1 a.fsPath then r.2 else a :: r.2)

/-- Modelled from the spec: first restore the trash of every artifact,
then return the subset failing `validate` against the resulting
filesystem, in declared order. -/
def specFilesToDownload (hashFn : String → String) (fs : Fs)
    (arts : List ApplicationArtifact) : Fs × List ApplicationArtifact :=
  let fsN := arts.foldl (fun g a => restore_trash g a.fsPath) fs
  (fsN, arts.filter (fun a => ! validate hashFn a fsN a.fsPath))

/-- Sequential validity of an artifact list: each artifact passes
`validate` right after its own trash restore. -/
def seqAllValid (hashFn : String → String) :
    Fs → List ApplicationArtifact → Bool
  | _, [] => true
  | fs, a :: rest =>
    let fs1 := restore_trash fs a.fsPath
    validate hashFn a fs1 a.fsPath && seqAllValid hashFn fs1 rest

/-- `InstallationManager::verify_installation`: re-runs
`get_files_to_download` on `descriptor.artifacts` and reports whether
nothing is left to download. -/
def verify_installation (hashFn : String → String) (fs : Fs)
    (d : ApplicationDescriptor) : Bool :=
  (get_files_to_download hashFn fs d.artifacts).2.isEmpty

/-- The files of `fs` under `p` (`WalkDir` with the `is_file` metadata
filter, which excludes symlinks). -/
def walkFiles (fs : Fs) (p : FsPath) : List FsPath :=
  fs.filterMap (fun e =>
    match e.2 with
    | .fileData _ => if p.isPrefixOf e.1 then some e.1 else none
    | .symlink _ => none)

/-- The paths `lock_installation` collects: for each artifact of
`all_artifacts` the files under an archive path or the artifact path
itself, then the descriptor snapshot `app.json`. -/
def lockPaths (fs : Fs) (d : ApplicationDescriptor) : List FsPath :=
  (d.all_artifacts.flatMap (fun a =>
    if a.is_archive then walkFiles fs a.fsPath else [a.fsPath]))
    ++ [pathComponents "app.json"]

/-- The per-path body of `lock_installation`:
`SharedFlock::wait_lock(File::open(path).unwrap()).unwrap()` — a failed
open panics, a failed flock (modelled by the `flockOk` oracle) panics,
and a success contributes a held lock. -/
def lockAll (flockOk : FsPath → Bool) (fs : Fs) :
    List FsPath → Outcome (List FsPath)
  | [] => .ok []
  | p :: ps =>
    match entryAt fs p with
    | none => .panicked "called `Result::unwrap()` on an `Err` value"
    | some _ =>
      if flockOk p then
        match lockAll flockOk fs ps with
        | .ok ls => .ok (p :: ls)
        | .err e => .err e
        | .panicked m => .panicked m
      else .panicked "called `Result::unwrap()` on an `Err` value"

/-- `InstallationManager::lock_installation`. -/
def lock_installation (flockOk : FsPath → Bool) (fs : Fs)
    (d : ApplicationDescriptor) : Outcome (List FsPath) :=
  lockAll flockOk fs (lockPaths fs d)

end InstallationManager

/-! ## Download progress accounting (`src/download_manager.rs`) -/

/-- The in-flight progress reports of one artifact transfer: after each
chunk the `ProgressReader` callback reports the committed byte count plus
the accumulated in-flight bytes.  Values are the numerators over the
fixed batch total; the reported `f64` is this numerator divided by
`total_size`, and division by a fixed positive total preserves order. -/
def artifactReports : Nat → List Nat → List Nat
  | _, [] => []
  | acc, c :: cs => (acc + c) :: artifactReports (acc + c) cs

/-- The full report sequence of `download_and_store` for a batch: for
each artifact, its chunk-by-chunk in-flight reports, then the committed
report after advancing by the declared size
(`download_size.unwrap_or(size)`). -/
def batchReports : Nat → List (ApplicationArtifact × List Nat) → List Nat
  | _, [] => []
  | d, (a, cs) :: rest =>
    artifactReports d cs ++ (d + a.declaredSize) :: batchReports (d + a.declaredSize) rest

/-! ## Lemmas about the orphan sweep -/

namespace InstallationManager

theorem matchFirst_exactM_mem {managed : List FsPath} {e : FsPath}
    (h : matchFirst managed e = .exactM) : e ∈ managed := by
  induction managed with
  | nil => simp [matchFirst] at h
  | cons p rest ih =>
    simp only [matchFirst] at h
    by_cases hpe : p = e
    · exact List.mem_cons.mpr (Or.inl hpe.symm)
    · by_cases hpref : e.isPrefixOf p
      · simp [hpe, hpref] at h
      · simp only [hpe, hpref, if_false] at h
        exact List.mem_cons.mpr (Or.inr (ih h))

theorem matchFirst_ne_noneM_of_mem {managed : List FsPath} {e : FsPath}
    (h : e ∈ managed) : matchFirst managed e ≠ .noneM := by
  induction managed with
  | nil => simp at h
  | cons p rest ih =>
    simp only [matchFirst]
    by_cases hpe : p = e
    · simp [hpe]
    · have : e ∈ rest := by
        rcases List.mem_cons.mp h with h1 | h1
        · exact absurd h1.symm hpe
        · exact h1
      by_cases hpref : e.isPrefixOf p
      · simp [hpe, hpref]
      · simp only [hpe, hpref, if_false]
        exact ih this

theorem matchFirst_noneM_of {managed : List FsPath} {e : FsPath}
    (h : ∀ p ∈ managed, p ≠ e ∧ e.isPrefixOf p = false) :
    matchFirst managed e = .noneM := by
  induction managed with
  | nil => rfl
  | cons p rest ih =>
    have hp := h p (by simp)
    simp only [matchFirst, hp.1, hp.2, if_false, Bool.false_eq_true]
    exact ih (fun q hq => h q (by simp [hq]))

/-- An entry whose path has no match is collected exactly. -/
theorem sweepEntry_noneM {managed : List FsPath} {cur : FsPath}
    (e : DirEntry) (h : matchFirst managed (cur ++ [e.name]) = .noneM) :
    sweepEntry managed cur e = .ok [cur ++ [e.name]] := by
  cases e with
  | fileEntry n =>
    simp only [DirEntry.name] at h
    rw [sweepEntry, h]
    rfl
  | dirEntry n children =>
    simp only [DirEntry.name] at h
    rw [sweepEntry, h]
    rfl

mutual
/-- Every path an entry contributes to the deletion set had no match. -/
theorem mem_del_noneM_entry (managed : List FsPath) :
    ∀ (cur : FsPath) (e : DirEntry) (del : List FsPath),
      sweepEntry managed cur e = .ok del →
      ∀ q ∈ del, matchFirst managed q = .noneM
  | cur, .fileEntry n, del => by
    intro h q hq
    rw [sweepEntry] at h
    cases hk : matchFirst managed (cur ++ [n]) with
    | noneM =>
      rw [hk] at h
      cases h
      simp only [List.mem_singleton] at hq
      subst hq
      exact hk
    | exactM => rw [hk] at h; cases h; simp at hq
    | underM => rw [hk] at h; cases h
  | cur, .dirEntry n children, del => by
    intro h q hq
    rw [sweepEntry] at h
    cases hk : matchFirst managed (cur ++ [n]) with
    | noneM =>
      rw [hk] at h
      cases h
      simp only [List.mem_singleton] at hq
      subst hq
      exact hk
    | exactM => rw [hk] at h; cases h; simp at hq
    | underM =>
      rw [hk] at h
      exact mem_del_noneM managed (cur ++ [n]) children del h q hq
/-- Every path collected for deletion had no match in the protected
list. -/
theorem mem_del_noneM (managed : List FsPath) :
    ∀ (cur : FsPath) (l : DirList) (del : List FsPath),
      get_paths_to_delete managed cur l = .ok del →
      ∀ q ∈ del, matchFirst managed q = .noneM
  | cur, .nil, del => by
    intro h q hq
    rw [get_paths_to_delete] at h
    cases h
    simp at hq
  | cur, .cons e rest, del => by
    intro h q hq
    rw [get_paths_to_delete] at h
    cases hhead : sweepEntry managed cur e with
    | error er => rw [hhead] at h; cases h
    | ok hs =>
      rw [hhead] at h
      cases hrest : get_paths_to_delete managed cur rest with
      | error er => rw [hrest] at h; cases h
      | ok ts =>
        rw [hrest] at h
        cases h
        rcases List.mem_append.mp hq with h1 | h1
        · exact mem_del_noneM_entry managed cur e hs hhead q h1
        · exact mem_del_noneM managed cur rest ts hrest q h1
end

mutual
/-- Every file contributed by an entry extends the entry's position. -/
theorem filesOfEntry_pref :
    ∀ (cur : FsPath) (e : DirEntry) (f : FsPath),
      f ∈ filesOfEntry cur e → cur <+: f
  | cur, .fileEntry n, f => by
    intro h
    rw [filesOfEntry] at h
    simp only [List.mem_singleton] at h
    subst h
    exact List.prefix_append cur [n]
  | cur, .dirEntry n children, f => by
    intro h
    rw [filesOfEntry] at h
    exact (List.prefix_append cur [n]).trans (filesOf_pref (cur ++ [n]) children f h)
/-- Every file of a tree rooted at `cur` has `cur` as a path prefix. -/
theorem filesOf_pref :
    ∀ (cur : FsPath) (l : DirList) (f : FsPath),
      f ∈ filesOf cur l → cur <+: f
  | cur, .nil, f => by intro h; rw [filesOf] at h; simp at h
  | cur, .cons e rest, f => by
    intro h
    rw [filesOf] at h
    rcases List.mem_append.mp h with h1 | h1
    · exact filesOfEntry_pref cur e f h1
    · exact filesOf_pref cur rest f h1
end

mutual
/-- Soundness of the per-entry sweep decision: a file under the entry
that no collected path covers lies under some protected path. -/
theorem sweep_entry_sound (managed : List FsPath) :
    ∀ (cur : FsPath) (e : DirEntry) (del : List FsPath),
      sweepEntry managed cur e = .ok del →
      ∀ f ∈ filesOfEntry cur e, (∀ q ∈ del, ¬ q <+: f) →
      ∃ p ∈ managed, p <+: f
  | cur, .fileEntry n, del => by
    intro h f hf hkeep
    rw [sweepEntry] at h
    rw [filesOfEntry] at hf
    simp only [List.mem_singleton] at hf
    subst hf
    cases hk : matchFirst managed (cur ++ [n]) with
    | noneM =>
      rw [hk] at h
      cases h
      exact absurd (List.prefix_refl _) (hkeep (cur ++ [n]) (by simp))
    | exactM =>
      rw [hk] at h
      cases h
      exact ⟨cur ++ [n], matchFirst_exactM_mem hk, List.prefix_refl _⟩
    | underM => rw [hk] at h; cases h
  | cur, .dirEntry n children, del => by
    intro h f hf hkeep
    rw [sweepEntry] at h
    rw [filesOfEntry] at hf
    cases hk : matchFirst managed (cur ++ [n]) with
    | noneM =>
      rw [hk] at h
      cases h
      exact absurd (filesOf_pref (cur ++ [n]) children f hf)
        (hkeep (cur ++ [n]) (by simp))
    | exactM =>
      rw [hk] at h
      cases h
      exact ⟨cur ++ [n], matchFirst_exactM_mem hk,
        filesOf_pref (cur ++ [n]) children f hf⟩
    | underM =>
      rw [hk] at h
      exact sweep_entry_sound_aux managed (cur ++ [n]) children del h f hf hkeep
/-- Soundness of the orphan sweep: when `get_paths_to_delete` succeeds,
every file of the tree that no collected path covers lies under some
protected path. -/
theorem sweep_entry_sound_aux (managed : List FsPath) :
    ∀ (cur : FsPath) (l : DirList) (del : List FsPath),
      get_paths_to_delete managed cur l = .ok del →
      ∀ f ∈ filesOf cur l, (∀ q ∈ del, ¬ q <+: f) →
      ∃ p ∈ managed, p <+: f
  | cur, .nil, del => by
    intro h f hf _
    rw [filesOf] at hf
    simp at hf
  | cur, .cons e rest, del => by
    intro h f hf hkeep
    rw [get_paths_to_delete] at h
    rw [filesOf] at hf
    cases hhead : sweepEntry managed cur e with
    | error er => rw [hhead] at h; cases h
    | ok hs =>
      rw [hhead] at h
      cases hrest : get_paths_to_delete managed cur rest with
      | error er => rw [hrest] at h; cases h
      | ok ts =>
        rw [hrest] at h
        cases h
        rcases List.mem_append.mp hf with h1 | h1
        · exact sweep_entry_sound managed cur e hs hhead f h1
            (fun q hq => hkeep q (List.mem_append.mpr (Or.inl hq)))
        · exact sweep_entry_sound_aux managed cur rest ts hrest f h1
            (fun q hq => hkeep q (List.mem_append.mpr (Or.inr hq)))
end

/-- Soundness of the orphan sweep at the root listing. -/
theorem sweep_files_sound (managed : List FsPath) (cur : FsPath)
    (l : DirList) (del : List FsPath)
    (h : get_paths_to_delete managed cur l = .ok del)
    (f : FsPath) (hf : f ∈ filesOf cur l)
    (hkeep : ∀ q ∈ del, ¬ q <+: f) :
    ∃ p ∈ managed, p <+: f :=
  sweep_entry_sound_aux managed cur l del h f hf hkeep

/-- A root entry whose path has no match is collected for deletion. -/
theorem deleted_of_noneM (managed : List FsPath) :
    ∀ (cur : FsPath) (l : DirList) (del : List FsPath) (n : String),
      get_paths_to_delete managed cur l = .ok del →
      n ∈ l.names →
      matchFirst managed (cur ++ [n]) = .noneM →
      (cur ++ [n]) ∈ del
  | cur, .nil, del, n => by intro _ hn _; simp [DirList.names] at hn
  | cur, .cons e rest, del, n => by
    intro h hn hk
    rw [get_paths_to_delete] at h
    by_cases hen : e.name = n
    · have hse : sweepEntry managed cur e = .ok [cur ++ [n]] := by
        have hkk : matchFirst managed (cur ++ [e.name]) = .noneM := by
          rw [hen]; exact hk
        rw [sweepEntry_noneM e hkk, hen]
      rw [hse] at h
      cases hrest : get_paths_to_delete managed cur rest with
      | error er => rw [hrest] at h; cases h
      | ok ts =>
        rw [hrest] at h
        cases h
        exact List.mem_append.mpr (Or.inl (by simp))
    · have hn' : n ∈ rest.names := by
        rw [DirList.names] at hn
        rcases List.mem_cons.mp hn with h1 | h1
        · exact absurd h1.symm hen
        · exact h1
      cases hhead : sweepEntry managed cur e with
      | error er => rw [hhead] at h; cases h
      | ok hs =>
        rw [hhead] at h
        cases hrest : get_paths_to_delete managed cur rest with
        | error er => rw [hrest] at h; cases h
        | ok ts =>
          rw [hrest] at h
          cases h
          exact List.mem_append.mpr
            (Or.inr (deleted_of_noneM managed cur rest ts n hrest hn' hk))

end InstallationManager

/-! ## Concrete fixtures -/

/-- An artifact with the given path and otherwise neutral fields. -/
def mkArtifact (p : String) : ApplicationArtifact :=
  { url := "http://host/file", size := 0, download_size := none,
    checksum := "", path := p }

/-- Neutral JVM parameters. -/
def jvmFixture : JvmParameters :=
  { jvm_path := "jvm", jvm_library := "libjvm.so", main_class := "Main",
    options := [] }

/-- A descriptor with the given artifacts and unmanaged paths and a
`splash/` splash artifact. -/
def mkDescriptor (arts : List ApplicationArtifact)
    (unman : Option (List String)) : ApplicationDescriptor :=
  { name := "app", version := "1", signature := none,
    splash := mkArtifact "splash/", jvm_params := jvmFixture,
    artifacts := arts, unmanaged_paths := unman }

/-- Descriptor with a single `lib/a.jar` artifact. -/
def descBasic : ApplicationDescriptor :=
  mkDescriptor [mkArtifact "lib/a.jar"] none

/-- Descriptor declaring `lib/a.jar` and the unmanaged root `lib`. -/
def descUnmanagedLib : ApplicationDescriptor :=
  mkDescriptor [mkArtifact "lib/a.jar"] (some ["lib"])

/-- Descriptor with a path-traversal artifact. -/
def descTraversal : ApplicationDescriptor :=
  mkDescriptor [mkArtifact "../evil"] none

/-- Descriptor with no artifacts, only the `s/` splash archive. -/
def descSplashOnly : ApplicationDescriptor :=
  { name := "app", version := "1", signature := none,
    splash := mkArtifact "s/", jvm_params := jvmFixture,
    artifacts := [], unmanaged_paths := none }

/-- A verifier that rejects everything. -/
def edReject : Ed25519Verifier := fun _ _ _ => false

/-- An installation root holding a leftover trash mirror, the descriptor
snapshot, the managed artifact and the splash directory. -/
def treeBackup : DirList :=
  .ofList [.dirEntry ".launcher.backup" (.ofList [.fileEntry "x"]),
    .fileEntry "app.json",
    .dirEntry "lib" (.ofList [.fileEntry "a.jar"]),
    .dirEntry "splash" (.ofList [.fileEntry "img"])]

/-- An installation root whose `lib` directory holds the managed
`a.jar` and the stray `b.txt`. -/
def treeShadow : DirList :=
  .ofList [.dirEntry "lib" (.ofList [.fileEntry "a.jar", .fileEntry "b.txt"])]

/-! ## C2 — path traversal handling in `parse` -/

/-- C2 counterexample: on a descriptor whose artifact path contains
`..`, `parse` does not return a `Security`/`Signature` error `Result` —
it panics, with or without a trust anchor. -/
theorem parse_dotdot_panics_not_error :
    ApplicationDescriptor.parseChecked edReject "" descTraversal none
      = .panicked securityPanicMsg
    ∧ ApplicationDescriptor.parseChecked edReject "" descTraversal (some [])
      = .panicked securityPanicMsg
    ∧ (ApplicationDescriptor.parseChecked edReject "" descTraversal none).isErr
      = false := by
  refine ⟨by decide, by decide, by decide⟩

/-- C2 (amended): whenever some artifact of `all_artifacts()` has a path
containing `..`, `ApplicationDescriptor::parse` panics with the security
message — rejecting the descriptor, but by `panic!`, not by returning an
error result — regardless of all other fields and of the trust anchor. -/
theorem parse_rejects_dotdot_by_panic (ed : Ed25519Verifier)
    (content : String) (desc : ApplicationDescriptor)
    (pk : Option (List Nat))
    (h : desc.all_artifacts.any (fun a => strContains a.path "..") = true) :
    ApplicationDescriptor.parseChecked ed content desc pk
      = .panicked securityPanicMsg := by
  simp only [ApplicationDescriptor.parseChecked, h, if_true]

/-- C2 witness: the panic on the concrete traversal descriptor. -/
theorem parse_rejects_dotdot_by_panic_witness :
    ApplicationDescriptor.parseChecked edReject "x" descTraversal (some [1])
      = .panicked securityPanicMsg :=
  parse_rejects_dotdot_by_panic edReject "x" descTraversal (some [1]) (by decide)

/-! ## C3 — reserved names and the orphan sweep -/

open InstallationManager in
/-- C3 counterexample: the protected set of `delete_unused_files` does
not contain `.launcher.backup`, and the sweep of a root holding a trash
mirror collects exactly that directory for recursive deletion. -/
theorem sweep_deletes_backup_dir :
    [".launcher.backup"] ∉ managedPaths descBasic
    ∧ get_paths_to_delete (managedPaths descBasic) [] treeBackup
        = .ok [[".launcher.backup"]] := by
  refine ⟨by decide, by decide⟩

open InstallationManager in
/-- C3 (amended): the protected set built by `delete_unused_files`
contains the two reserved names `app.json` and `launcher.log`, so the
sweep never collects them; the trash mirror `.launcher.backup/` is *not*
protected, and whenever no artifact, splash or unmanaged path lies at or
under it, its presence in the root gets it collected for recursive
deletion. -/
theorem sweep_protects_descriptor_and_log (d : ApplicationDescriptor)
    (tree : DirList) (del : List FsPath) :
    ["app.json"] ∈ managedPaths d
    ∧ ["launcher.log"] ∈ managedPaths d
    ∧ (get_paths_to_delete (managedPaths d) [] tree = .ok del →
        ["app.json"] ∉ del ∧ ["launcher.log"] ∉ del)
    ∧ ((∀ p ∈ managedPaths d,
          p ≠ [".launcher.backup"]
          ∧ ([".launcher.backup"] : FsPath).isPrefixOf p = false) →
        get_paths_to_delete (managedPaths d) [] tree = .ok del →
        ".launcher.backup" ∈ tree.names →
        [".launcher.backup"] ∈ del) := by
  have e1 : pathComponents "app.json" = ["app.json"] := by decide
  have e2 : pathComponents "launcher.log" = ["launcher.log"] := by decide
  have h1 : ["app.json"] ∈ managedPaths d := by
    simp [managedPaths, e1]
  have h2 : ["launcher.log"] ∈ managedPaths d := by
    simp [managedPaths, e2]
  refine ⟨h1, h2, ?_, ?_⟩
  · intro hok
    constructor
    · intro hmem
      exact matchFirst_ne_noneM_of_mem h1
        (mem_del_noneM (managedPaths d) [] tree del hok _ hmem)
    · intro hmem
      exact matchFirst_ne_noneM_of_mem h2
        (mem_del_noneM (managedPaths d) [] tree del hok _ hmem)
  · intro hfree hok hname
    have hnone : matchFirst (managedPaths d) ([] ++ [".launcher.backup"]) = .noneM :=
      matchFirst_noneM_of (fun p hp => ⟨(hfree p hp).1.symm ∘ Eq.symm, (hfree p hp).2⟩)
    simpa using deleted_of_noneM (managedPaths d) [] tree del ".launcher.backup"
      hok hname hnone

/-- C3 witness: on the concrete root `treeBackup` the sweep keeps
`app.json` protected and collects the unprotected trash mirror. -/
theorem sweep_protects_descriptor_and_log_witness :
    ["app.json"] ∈ InstallationManager.managedPaths descBasic
    ∧ [".launcher.backup"] ∈ ([[".launcher.backup"]] : List FsPath) := by
  have h := sweep_protects_descriptor_and_log descBasic treeBackup
    [[".launcher.backup"]]
  exact ⟨h.1, h.2.2.2 (by decide) (by decide) (by decide)⟩

/-! ## C4 — the per-entry sweep rule and its frame consequence -/

open InstallationManager in
/-- C4 counterexample: with artifact `lib/a.jar` and unmanaged path
`lib`, the protected path `lib/a.jar` partial-matches the root entry
`lib` before its exact match `lib` is consulted, so the code descends
and deletes `lib/b.txt`, while the claimed rule (exact match anywhere
keeps the entry) deletes nothing. -/
theorem sweep_first_match_shadows_exact :
    get_paths_to_delete (managedPaths descUnmanagedLib) [] treeShadow
      = .ok [["lib", "b.txt"]]
    ∧ specSweepPathsToDelete (managedPaths descUnmanagedLib) [] treeShadow
      = .ok [] := by
  refine ⟨by decide, by decide⟩

open InstallationManager in
/-- C4 (amended): the sweep checks the protected paths in list order and
the first path that relates to the entry decides — equality keeps the
entry, a strict extension descends into it — so an exact match can be
shadowed by an earlier partial match; nevertheless, when
`delete_unused_files`'s collection succeeds, every file of the root that
no collected path covers lies at or under some protected path (an
artifact path, a reserved name, the splash path, or an unmanaged path). -/
theorem sweep_remaining_files_managed (d : ApplicationDescriptor)
    (tree : DirList) (del : List FsPath) (f : FsPath)
    (hok : get_paths_to_delete (managedPaths d) [] tree = .ok del)
    (hf : f ∈ filesOf [] tree)
    (hkeep : ∀ q ∈ del, ¬ q <+: f) :
    ∃ p ∈ managedPaths d, p <+: f :=
  sweep_files_sound (managedPaths d) [] tree del hok f hf hkeep

/-- C4 witness: the file `lib/a.jar` survives the sweep of `treeShadow`
under `descUnmanagedLib` and indeed lies under a protected path. -/
theorem sweep_remaining_files_managed_witness :
    ∃ p ∈ InstallationManager.managedPaths descUnmanagedLib,
      p <+: (["lib", "a.jar"] : FsPath) :=
  sweep_remaining_files_managed descUnmanagedLib treeShadow
    [["lib", "b.txt"]] ["lib", "a.jar"] (by decide) (by decide) (by decide)

/-! ## C1 — signature canonicalization -/

/-- `descBasic` carrying the hex signature token `"ab"`, which occurs
twice in the content `"1ab2ab3"`. -/
def descSigAb : ApplicationDescriptor :=
  { descBasic with signature := some "ab" }

/-- An Ed25519 verifier for which the signature token of `descSigAb` is
a valid signature (under the supplied key) of exactly the
first-occurrence-excised content `"12ab3"` — the signer of the claim's
premise. -/
def edFirstExcision : Ed25519Verifier := fun _ msg _ => msg == "12ab3"

/-- An Ed25519 verifier accepting exactly the all-occurrences-excised
content `"123"`. -/
def edAllExcision : Ed25519Verifier := fun _ msg _ => msg == "123"

/-- C1 counterexample: `String::replace` removes *both* occurrences of
the signature token `"ab"` from `"1ab2ab3"`, not just the first, so a
signature produced over the first-occurrence-excised form (the verifier
accepts exactly that form) is rejected by `parse`, contradicting the
claimed acceptance. -/
theorem signature_excision_not_first_occurrence :
    edFirstExcision [] (removeFirstOccurrence "1ab2ab3" "ab") [171] = true
    ∧ hexDecode "ab" = some [171]
    ∧ strReplaceAll "1ab2ab3" "ab" "" ≠ removeFirstOccurrence "1ab2ab3" "ab"
    ∧ ApplicationDescriptor.parseChecked edFirstExcision "1ab2ab3" descSigAb
        (some []) ≠ .ok descSigAb := by
  refine ⟨by decide, by decide, by decide, by decide⟩

/-- C1 (amended): with a trust anchor supplied and a signature present,
`parse` canonicalizes the content by removing *all* textual occurrences
of the signature hex string (`String::replace`) and accepts exactly when
the Ed25519 verifier accepts the remaining bytes under that key; so a
signature valid for the all-occurrences-excised form is accepted, and
any content change that alters the canonical form is rejected whenever
the verifier accepts only the signed message. -/
theorem signature_excision_removes_all_occurrences (ed : Ed25519Verifier)
    (content : String) (desc : ApplicationDescriptor) (sig : String)
    (pk sigBytes : List Nat)
    (hsig : desc.signature = some sig)
    (hdec : hexDecode sig = some sigBytes)
    (hclean : desc.all_artifacts.any (fun a => strContains a.path "..") = false) :
    ApplicationDescriptor.parseChecked ed content desc (some pk) = .ok desc
      ↔ ed pk (strReplaceAll content sig "") sigBytes = true := by
  simp only [ApplicationDescriptor.parseChecked, hclean, Bool.false_eq_true,
    if_false, ApplicationDescriptor.verifySig, hsig, hdec]
  cases hed : ed pk (strReplaceAll content sig "") sigBytes with
  | true => simp
  | false => simp

/-- C1 witness: a signature valid for the all-occurrences-excised form
`"123"` of `"1ab2ab3"` makes `parse` accept. -/
theorem signature_excision_removes_all_occurrences_witness :
    ApplicationDescriptor.parseChecked edAllExcision "1ab2ab3" descSigAb
      (some []) = .ok descSigAb :=
  (signature_excision_removes_all_occurrences edAllExcision "1ab2ab3"
    descSigAb "ab" [] [171] (by rfl) (by decide) (by decide)).mpr (by decide)

/-! ## C8 — download progress monotonicity -/

/-- Prepending the committed base to one artifact's in-flight reports
followed by any chain starting at an upper bound of the artifact's total
keeps the report chain non-decreasing. -/
theorem chain_artifactReports (cs : List Nat) :
    ∀ (d y : Nat) (rest : List Nat), d + cs.sum ≤ y →
      List.Chain' (· ≤ ·) (y :: rest) →
      List.Chain' (· ≤ ·) (d :: (artifactReports d cs ++ y :: rest)) := by
  induction cs with
  | nil =>
    intro d y rest hle hch
    simpa [artifactReports] using (List.chain'_cons.mpr ⟨by simpa using hle, hch⟩)
  | cons c cs ih =>
    intro d y rest hle hch
    simp only [artifactReports, List.cons_append]
    refine List.chain'_cons.mpr ⟨Nat.le_add_right d c, ?_⟩
    refine ih (d + c) y rest ?_ hch
    simp only [List.sum_cons] at hle
    omega

/-- The committed base followed by the batch reports is a non-decreasing
chain whenever every artifact transfers at most its declared size. -/
theorem chain_batchReports :
    ∀ (l : List (ApplicationArtifact × List Nat)) (d : Nat),
      (∀ p ∈ l, p.2.sum ≤ p.1.declaredSize) →
      List.Chain' (· ≤ ·) (d :: batchReports d l) := by
  intro l
  induction l with
  | nil => intro d _; simp [batchReports]
  | cons p rest ih =>
    intro d hb
    obtain ⟨a, cs⟩ := p
    simp only [batchReports]
    refine chain_artifactReports cs d (d + a.declaredSize) _ ?_ ?_
    · have := hb (a, cs) (by simp)
      simp only at this
      omega
    · exact ih (d + a.declaredSize) (fun q hq => hb q (by simp [hq]))

/-- An artifact declaring `downloadSize = 10` whose transfer actually
delivers 20 bytes. -/
def artOversize : ApplicationArtifact :=
  { url := "http://host/file", size := 5, download_size := some 10,
    checksum := "", path := "f" }

/-- C8 counterexample: when the transferred byte count exceeds the
declared `downloadSize`, the reported progress sequence decreases — the
in-flight report reaches 20 while the committed report after the
artifact falls back to the declared 10. -/
theorem progress_not_monotone_on_excess_bytes :
    batchReports 0 [(artOversize, [20])] = [20, 10]
    ∧ ¬ List.Chain' (· ≤ ·) (batchReports 0 [(artOversize, [20])]) := by
  refine ⟨by decide, ?_⟩
  intro hch
  rw [show batchReports 0 [(artOversize, [20])] = [20, 10] from by decide] at hch
  exact absurd (List.chain'_cons.mp hch).1 (by omega)

/-- C8 (amended): within a `download_and_store` batch the sequence of
progress values reported through `set_download_progress` is monotonic
non-decreasing *provided* every artifact's actual transferred byte count
is at most its declared `downloadSize ?? size`; with an excess transfer
the sequence can decrease at the artifact boundary. -/
theorem progress_monotone_of_declared_bounds
    (l : List (ApplicationArtifact × List Nat))
    (h : ∀ p ∈ l, p.2.sum ≤ p.1.declaredSize) :
    List.Chain' (· ≤ ·) (batchReports 0 l) :=
  (chain_batchReports l 0 h).tail

/-- C8 witness: a two-chunk transfer matching its declared size reports
the non-decreasing sequence `[1, 2, 2]`. -/
theorem progress_monotone_of_declared_bounds_witness :
    List.Chain' (· ≤ ·)
      (batchReports 0 [({ artOversize with download_size := some 2 }, [1, 1])]) :=
  progress_monotone_of_declared_bounds _ (by decide)

/-! ## C9 — what the Verify step re-checks -/

/-- A concrete digest function used to evaluate the validators. -/
def hashFixture : String → String := fun s => "H(" ++ s ++ ")"

open InstallationManager in
/-- Emptiness of the download-selection equals sequential validity. -/
theorem files_to_download_isEmpty (hashFn : String → String) :
    ∀ (arts : List ApplicationArtifact) (fs : Fs),
      (get_files_to_download hashFn fs arts).2.isEmpty
        = seqAllValid hashFn fs arts := by
  intro arts
  induction arts with
  | nil => intro fs; rfl
  | cons a rest ih =>
    intro fs
    simp only [get_files_to_download, seqAllValid]
    cases hv : validate hashFn a (restore_trash fs a.fsPath) a.fsPath with
    | true => simpa using ih (restore_trash fs a.fsPath)
    | false => simp

open InstallationManager in
/-- C9 counterexample: `verify_installation` reports success while the
splash artifact — a member of `all_artifacts()` — fails `validate` at
its resolved path, because only `descriptor.artifacts` is re-checked. -/
theorem verify_installation_ignores_splash :
    verify_installation hashFixture [] descSplashOnly = true
    ∧ descSplashOnly.splash ∈ descSplashOnly.all_artifacts
    ∧ validate hashFixture descSplashOnly.splash []
        descSplashOnly.splash.fsPath = false := by
  refine ⟨by decide, by decide, by decide⟩

open InstallationManager in
/-- C9 (amended): `verify_installation` returns `true` exactly when
every artifact of `descriptor.artifacts` — the splash artifact is *not*
re-checked — passes `validate` at its resolved path right after its
trash restore. -/
theorem verify_installation_checks_artifacts_only
    (hashFn : String → String) (fs : Fs) (d : ApplicationDescriptor) :
    verify_installation hashFn fs d = seqAllValid hashFn fs d.artifacts :=
  files_to_download_isEmpty hashFn d.artifacts fs

/-! ## C10 — lock acquisition never returns an error -/

/-- The per-path lock loop never builds an `Err` return. -/
theorem lockAll_never_err (flockOk : FsPath → Bool) (fs : Fs) :
    ∀ (ps : List FsPath),
      (InstallationManager.lockAll flockOk fs ps).isErr = false := by
  intro ps
  induction ps with
  | nil => rfl
  | cons p rest ih =>
    simp only [InstallationManager.lockAll]
    cases entryAt fs p with
    | none => rfl
    | some _ =>
      cases flockOk p with
      | false => rfl
      | true =>
        cases hrec : InstallationManager.lockAll flockOk fs rest with
        | ok ls => rfl
        | err e => rw [hrec] at ih; cases ih
        | panicked m => rfl

/-- A failing open or flock on any collected path makes the loop panic. -/
theorem lockAll_panics_of_failure (flockOk : FsPath → Bool) (fs : Fs) :
    ∀ (ps : List FsPath),
      (∃ p ∈ ps, entryAt fs p = none ∨ flockOk p = false) →
      ∃ m, InstallationManager.lockAll flockOk fs ps = .panicked m := by
  intro ps
  induction ps with
  | nil => intro h; simp at h
  | cons p rest ih =>
    intro h
    simp only [InstallationManager.lockAll]
    cases hent : entryAt fs p with
    | none => exact ⟨_, rfl⟩
    | some _ =>
      cases hfl : flockOk p with
      | false => exact ⟨_, rfl⟩
      | true =>
        have hbad : ∃ q ∈ rest, entryAt fs q = none ∨ flockOk q = false := by
          rcases h with ⟨q, hq, hcase⟩
          rcases List.mem_cons.mp hq with h1 | h1
          · subst h1
            rcases hcase with h2 | h2
            · rw [hent] at h2; cases h2
            · rw [hfl] at h2; cases h2
          · exact ⟨q, h1, hcase⟩
        obtain ⟨m, hm⟩ := ih hbad
        rw [hm]
        exact ⟨m, rfl⟩

/-- C10: `lock_installation` never returns an `Err` value; a failure to
open or to flock any of the computed files panics the launcher thread
via `unwrap` instead of surfacing a `Storage` error through the returned
`Result`. -/
theorem lock_installation_never_err (flockOk : FsPath → Bool) (fs : Fs)
    (d : ApplicationDescriptor) :
    (InstallationManager.lock_installation flockOk fs d).isErr = false
    ∧ ((∃ p ∈ InstallationManager.lockPaths fs d,
          entryAt fs p = none ∨ flockOk p = false) →
        ∃ m, InstallationManager.lock_installation flockOk fs d = .panicked m) :=
  ⟨lockAll_never_err flockOk fs _, fun h => lockAll_panics_of_failure flockOk fs _ h⟩

/-- C10 witness: on an empty root the lock loop panics on the missing
`app.json` rather than returning an error. -/
theorem lock_installation_never_err_witness :
    ((InstallationManager.lock_installation (fun _ => true) [] descSplashOnly).isErr
        = false)
    ∧ ∃ m, InstallationManager.lock_installation (fun _ => true) [] descSplashOnly
        = .panicked m :=
  ⟨(lock_installation_never_err (fun _ => true) [] descSplashOnly).1,
   (lock_installation_never_err (fun _ => true) [] descSplashOnly).2 (by decide)⟩

namespace InstallationManager

theorem gftd_sublist (hashFn : String → String) :
    ∀ (arts : List ApplicationArtifact) (fs : Fs),
      (get_files_to_download hashFn fs arts).2.Sublist arts := by
  intro arts
  induction arts with
  | nil => intro fs; simp [get_files_to_download]
  | cons a rest ih =>
    intro fs
    simp only [get_files_to_download]
    cases hv : validate hashFn a (restore_trash fs a.fsPath) a.fsPath with
    | true =>
      simp only [if_pos rfl]
      exact (ih (restore_trash fs a.fsPath)).cons a
    | false =>
      simp only [Bool.false_eq_true, if_false]
      exact (ih (restore_trash fs a.fsPath)).cons₂ a

theorem gftd_fst (hashFn : String → String) :
    ∀ (arts : List ApplicationArtifact) (fs : Fs),
      (get_files_to_download hashFn fs arts).1
        = arts.foldl (fun g a => restore_trash g a.fsPath) fs := by
  intro arts
  induction arts with
  | nil => intro fs; rfl
  | cons a rest ih =>
    intro fs
    simp only [get_files_to_download, List.foldl_cons]
    exact ih (restore_trash fs a.fsPath)

theorem validate_foldl_invariant (hashFn : String → String)
    (a : ApplicationArtifact) :
    ∀ (l : List ApplicationArtifact) (g : Fs),
      (∀ b ∈ l, ∀ g', validate hashFn a (restore_trash g' b.fsPath) a.fsPath
          = validate hashFn a g' a.fsPath) →
      validate hashFn a (l.foldl (fun g' b => restore_trash g' b.fsPath) g) a.fsPath
        = validate hashFn a g a.fsPath := by
  intro l
  induction l with
  | nil => intro g _; rfl
  | cons b rest ih =>
    intro g hinv
    simp only [List.foldl_cons]
    rw [ih (restore_trash g b.fsPath) (fun c hc => hinv c (by simp [hc]))]
    exact hinv b (by simp) g

theorem gftd_eq_spec (hashFn : String → String) :
    ∀ (arts : List ApplicationArtifact) (fs : Fs),
      arts.Nodup →
      (∀ (g : Fs) (a b : ApplicationArtifact), a ∈ arts → b ∈ arts → a ≠ b →
        validate hashFn a (restore_trash g b.fsPath) a.fsPath
          = validate hashFn a g a.fsPath) →
      get_files_to_download hashFn fs arts = specFilesToDownload hashFn fs arts := by
  intro arts
  induction arts with
  | nil => intro fs _ _; rfl
  | cons a rest ih =>
    intro fs hnd hinv
    have hndr : rest.Nodup := (List.nodup_cons.mp hnd).2
    have hna : a ∉ rest := (List.nodup_cons.mp hnd).1
    have hinvr : ∀ (g : Fs) (x y : ApplicationArtifact), x ∈ rest → y ∈ rest →
        x ≠ y → validate hashFn x (restore_trash g y.fsPath) x.fsPath
          = validate hashFn x g x.fsPath :=
      fun g x y hx hy => hinv g x y (by simp [hx]) (by simp [hy])
    have hrec := ih (restore_trash fs a.fsPath) hndr hinvr
    have hval : validate hashFn a
        (rest.foldl (fun g' b => restore_trash g' b.fsPath) (restore_trash fs a.fsPath)) a.fsPath
        = validate hashFn a (restore_trash fs a.fsPath) a.fsPath := by
      refine validate_foldl_invariant hashFn a rest (restore_trash fs a.fsPath) ?_
      intro b hb g'
      exact hinv g' a b (by simp) (by simp [hb]) (fun he => hna (he ▸ hb))
    simp only [get_files_to_download, specFilesToDownload, List.foldl_cons,
      List.filter_cons]
    rw [hrec]
    simp only [specFilesToDownload]
    rw [hval]
    cases hv : validate hashFn a (restore_trash fs a.fsPath) a.fsPath with
    | true => simp
    | false => simp

end InstallationManager

open InstallationManager in
/-- C6: `get_files_to_download` restores the trash of every artifact (the
resulting filesystem is the fold of `restore_trash` over the list) and
returns the subset of artifacts failing `validate`, preserving declared
order (the result is a sublist of the input); when no artifact's validity
depends on another's restore, the selection equals the
restore-everything-first-then-filter reading. -/
theorem files_to_download_restores_then_filters (hashFn : String → String)
    (fs : Fs) (arts : List ApplicationArtifact) :
    (get_files_to_download hashFn fs arts).2.Sublist arts
    ∧ (get_files_to_download hashFn fs arts).1
        = arts.foldl (fun g a => restore_trash g a.fsPath) fs
    ∧ (arts.Nodup →
        (∀ (g : Fs) (a b : ApplicationArtifact), a ∈ arts → b ∈ arts → a ≠ b →
          validate hashFn a (restore_trash g b.fsPath) a.fsPath
            = validate hashFn a g a.fsPath) →
        get_files_to_download hashFn fs arts = specFilesToDownload hashFn fs arts) :=
  ⟨gftd_sublist hashFn arts fs, gftd_fst hashFn arts fs,
   fun hnd hinv => gftd_eq_spec hashFn arts fs hnd hinv⟩

/-- A filesystem holding a live `lib/a.jar` and a stale trash copy. -/
def fsTrashPair : Fs :=
  [(["lib", "a.jar"], .fileData "OK"),
   ([".launcher.backup", "lib", "a.jar"], .fileData "old")]

/-- C6 witness: on one artifact over `fsTrashPair` the selection agrees
with the restore-all-first reading, the trash is restored, and the order
is preserved. -/
theorem files_to_download_restores_then_filters_witness :
    (InstallationManager.get_files_to_download hashFixture fsTrashPair
        [mkArtifact "lib/a.jar"]).2.Sublist [mkArtifact "lib/a.jar"]
    ∧ InstallationManager.get_files_to_download hashFixture fsTrashPair
        [mkArtifact "lib/a.jar"]
      = InstallationManager.specFilesToDownload hashFixture fsTrashPair
        [mkArtifact "lib/a.jar"] :=
  ⟨(files_to_download_restores_then_filters hashFixture fsTrashPair
      [mkArtifact "lib/a.jar"]).1,
   (files_to_download_restores_then_filters hashFixture fsTrashPair
      [mkArtifact "lib/a.jar"]).2.2 (by decide)
      (by
        intro g a b ha hb hne
        simp only [List.mem_singleton] at ha hb
        exact absurd (ha.trans hb.symm) hne)⟩

namespace InstallationManager

theorem existsPath_iff {fs : Fs} {p : FsPath} :
    existsPath fs p = true ↔ ∃ e ∈ fs, p <+: e.1 := by
  simp [existsPath, List.any_eq_true, List.isPrefixOf_iff_prefix]

theorem isPrefixOf_false_iff {a b : FsPath} :
    a.isPrefixOf b = false ↔ ¬ a <+: b := by
  rw [← List.isPrefixOf_iff_prefix]
  cases h : a.isPrefixOf b <;> simp

theorem isFileAt_iff {fs : Fs} {p : FsPath} :
    isFileAt fs p = true ↔ ∃ e ∈ fs, e.1 = p := by
  simp [isFileAt, List.any_eq_true]

/-- Characterization of the live-entry deletion step under a
well-formed filesystem: exactly the entries under `rel` disappear. -/
theorem mem_liveCleared {fs : Fs} {rel : FsPath} (hwf : WFfs fs)
    (x : FsPath × FileData) :
    (x ∈ (if existsPath fs rel then deleteEntry fs rel else fs))
      ↔ x ∈ fs ∧ ¬ rel <+: x.1 := by
  by_cases hex : existsPath fs rel
  · rw [if_pos hex]
    unfold deleteEntry
    by_cases hf : isFileAt fs rel
    · rw [if_pos hf]
      unfold removeFileFs
      rw [List.mem_filter]
      constructor
      · rintro ⟨hx, hne⟩
        simp only [decide_eq_true_eq] at hne
        refine ⟨hx, fun hpref => ?_⟩
        obtain ⟨y, hy, hyrel⟩ := isFileAt_iff.mp hf
        have heq := hwf y hy x hx (by rw [hyrel]; exact hpref)
        exact hne (heq ▸ hyrel)
      · rintro ⟨hx, hnp⟩
        refine ⟨hx, ?_⟩
        simp only [decide_eq_true_eq]
        intro he
        exact hnp (he ▸ List.prefix_refl rel)
    · rw [if_neg hf]
      unfold removeDirAllFs
      rw [List.mem_filter]
      constructor
      · rintro ⟨hx, hne⟩
        simp only [decide_eq_true_eq, List.isPrefixOf_iff_prefix] at hne
        exact ⟨hx, hne⟩
      · rintro ⟨hx, hnp⟩
        refine ⟨hx, ?_⟩
        simp only [decide_eq_true_eq, List.isPrefixOf_iff_prefix]
        exact hnp
  · rw [if_neg hex]
    constructor
    · intro hx
      refine ⟨hx, fun hpref => hex (existsPath_iff.mpr ⟨x, hx, hpref⟩)⟩
    · exact fun h => h.1

/-- A path that avoids the trash directory is no prefix of its own
trash positions. -/
theorem rel_not_prefix_of_trash {rel s : FsPath}
    (hpre : trashDir.isPrefixOf rel = false) (hne : rel ≠ []) :
    ¬ rel <+: trashDir ++ (rel ++ s) := by
  obtain ⟨r0, rs, hrel⟩ := List.exists_cons_of_ne_nil hne
  have hr0 : r0 ≠ ".launcher.backup" := by
    intro he
    rw [isPrefixOf_false_iff] at hpre
    exact hpre (by rw [hrel, he]; exact ⟨rs, rfl⟩)
  subst hrel
  intro hp
  exact hr0 (List.cons_prefix_cons.mp hp).1

/-- The trash position of `rel` is no prefix of live positions under
`rel`. -/
theorem trash_not_prefix_of_rel {rel s : FsPath}
    (hpre : trashDir.isPrefixOf rel = false) (hne : rel ≠ []) :
    ¬ (trashDir ++ rel) <+: rel ++ s := by
  obtain ⟨r0, rs, hrel⟩ := List.exists_cons_of_ne_nil hne
  have hr0 : r0 ≠ ".launcher.backup" := by
    intro he
    rw [isPrefixOf_false_iff] at hpre
    exact hpre (by rw [hrel, he]; exact ⟨rs, rfl⟩)
  subst hrel
  intro hp
  exact hr0 ((List.cons_prefix_cons.mp hp).1).symm

end InstallationManager

namespace InstallationManager

/-- Round trip: restoring right after a successful backup of a live
entry (with no prior trash) recovers the original filesystem. -/
theorem restore_after_move (fs fs' : Fs) (rel : FsPath)
    (hex : existsPath fs rel = true)
    (hbx : existsPath fs (trashDir ++ rel) = false)
    (hmv : move_to_trash fs rel = .ok fs') :
    restore_trash fs' rel = fs := by
  unfold move_to_trash at hmv
  rw [if_pos hex] at hmv
  simp only [hbx, Bool.false_eq_true, if_false] at hmv
  by_cases hpre : rel.isPrefixOf (trashDir ++ rel) = true
  · rw [if_pos hpre] at hmv; cases hmv
  · rw [if_neg hpre] at hmv
    cases hmv
    have hpre' : ¬ rel <+: trashDir ++ rel :=
      fun h => hpre (List.isPrefixOf_iff_prefix.mpr h)
    set g : FsPath × FileData → FsPath × FileData := fun e =>
      if rel.isPrefixOf e.1 then ((trashDir ++ rel) ++ e.1.drop rel.length, e.2)
      else e with hg
    have hfs' : renameFs fs rel (trashDir ++ rel) = fs.map g := rfl
    have hb' : existsPath (fs.map g) (trashDir ++ rel) = true := by
      obtain ⟨e, he, hpe⟩ := existsPath_iff.mp hex
      refine existsPath_iff.mpr ⟨g e, List.mem_map.mpr ⟨e, he, rfl⟩, ?_⟩
      rw [hg]
      dsimp only
      rw [if_pos (List.isPrefixOf_iff_prefix.mpr hpe)]
      exact List.prefix_append _ _
    have hl' : existsPath (fs.map g) rel = false := by
      rw [Bool.eq_false_iff]
      intro hcontra
      obtain ⟨y, hy, hpy⟩ := existsPath_iff.mp hcontra
      obtain ⟨e, he, hge⟩ := List.mem_map.mp hy
      rw [hg] at hge
      by_cases hpe : rel.isPrefixOf e.1
      · simp only [if_pos hpe] at hge
        rw [← hge] at hpy
        have h2 : (trashDir ++ rel) <+: (trashDir ++ rel) ++ e.1.drop rel.length :=
          List.prefix_append _ _
        exact hpre' (List.prefix_of_prefix_length_le hpy h2 (by simp))
      · simp only [if_neg hpe] at hge
        rw [← hge] at hpy
        exact hpe (List.isPrefixOf_iff_prefix.mpr hpy)
    unfold restore_trash
    rw [hfs']
    rw [if_pos hb']
    simp only [hl', Bool.false_eq_true, if_false]
    unfold renameFs
    rw [List.map_map]
    have hid : ∀ e ∈ fs, ((fun e : FsPath × FileData =>
        if (trashDir ++ rel).isPrefixOf e.1 then
          (rel ++ e.1.drop (trashDir ++ rel).length, e.2)
        else e) ∘ g) e = e := by
      intro e he
      simp only [Function.comp, hg]
      by_cases hpe : rel.isPrefixOf e.1
      · obtain ⟨t, ht⟩ := List.isPrefixOf_iff_prefix.mp hpe
        rw [if_pos hpe]
        have hdrop : e.1.drop rel.length = t := by rw [← ht]; exact List.drop_left rel t
        dsimp only
        rw [hdrop]
        rw [if_pos (List.isPrefixOf_iff_prefix.mpr (List.prefix_append _ _))]
        rw [List.drop_left]
        rw [ht]
      · rw [if_neg hpe]
        have hnb : ¬ (trashDir ++ rel).isPrefixOf e.1 = true := by
          intro hb
          have : existsPath fs (trashDir ++ rel) = true :=
            existsPath_iff.mpr ⟨e, he, List.isPrefixOf_iff_prefix.mp hb⟩
          rw [this] at hbx
          cases hbx
        rw [if_neg hnb]
    calc fs.map (_ ∘ g) = fs.map id := List.map_congr_left (fun e he => hid e he)
    _ = fs := List.map_id fs

end InstallationManager

namespace InstallationManager

/-- General effect of `restore_trash` when a trash entry exists: the
trash subtree moves to the live position (replacing any live version)
and the trash position is cleared, everything else untouched. -/
theorem restore_trash_general (fs : Fs) (rel : FsPath)
    (hwf : WFfs fs)
    (hpre : trashDir.isPrefixOf rel = false)
    (hne : rel ≠ [])
    (hb : existsPath fs (trashDir ++ rel) = true) :
    existsPath (restore_trash fs rel) (trashDir ++ rel) = false
    ∧ (∀ s c, ((rel ++ s, c) ∈ restore_trash fs rel
        ↔ ((trashDir ++ rel) ++ s, c) ∈ fs))
    ∧ (∀ p c, rel.isPrefixOf p = false → (trashDir ++ rel).isPrefixOf p = false →
        ((p, c) ∈ restore_trash fs rel ↔ (p, c) ∈ fs)) := by
  have hres : restore_trash fs rel
      = ((if existsPath fs rel then deleteEntry fs rel else fs)).map
        (fun e => if (trashDir ++ rel).isPrefixOf e.1 then
          (rel ++ e.1.drop (trashDir ++ rel).length, e.2) else e) := by
    unfold restore_trash
    rw [if_pos hb]
    rfl
  set fs1 := (if existsPath fs rel then deleteEntry fs rel else fs) with hfs1
  have h1 : ∀ x : FsPath × FileData, x ∈ fs1 ↔ x ∈ fs ∧ ¬ rel <+: x.1 :=
    mem_liveCleared hwf
  refine ⟨?_, ?_, ?_⟩
  · rw [hres, Bool.eq_false_iff]
    intro hc
    obtain ⟨y, hy, hpy⟩ := existsPath_iff.mp hc
    obtain ⟨x, hx, hgx⟩ := List.mem_map.mp hy
    by_cases hbx : (trashDir ++ rel).isPrefixOf x.1 = true
    · rw [if_pos hbx] at hgx
      rw [← hgx] at hpy
      exact trash_not_prefix_of_rel hpre hne hpy
    · rw [if_neg hbx] at hgx
      rw [← hgx] at hpy
      exact hbx (List.isPrefixOf_iff_prefix.mpr hpy)
  · intro s c
    rw [hres]
    constructor
    · intro hmem
      obtain ⟨x, hx, hgx⟩ := List.mem_map.mp hmem
      by_cases hbx : (trashDir ++ rel).isPrefixOf x.1 = true
      · obtain ⟨t, ht⟩ := List.isPrefixOf_iff_prefix.mp hbx
        rw [if_pos hbx] at hgx
        have hdrop : x.1.drop (trashDir ++ rel).length = t := by
          rw [← ht]; exact List.drop_left _ t
        rw [hdrop] at hgx
        have hts : t = s := List.append_cancel_left (congrArg Prod.fst hgx)
        have hc : x.2 = c := congrArg Prod.snd hgx
        have hx1 : x = ((trashDir ++ rel) ++ s, c) := by
          cases x
          simp only at ht hc ⊢
          rw [← ht, hts, hc]
        rw [hx1] at hx
        exact ((h1 _).mp hx).1
      · rw [if_neg hbx] at hgx
        rw [hgx] at hx
        have := ((h1 _).mp hx).2
        exact absurd (List.prefix_append rel s) this
    · intro hmem
      have hnotrel : ¬ rel <+: (trashDir ++ rel) ++ s := by
        rw [List.append_assoc]
        exact rel_not_prefix_of_trash hpre hne
      refine List.mem_map.mpr ⟨((trashDir ++ rel) ++ s, c), (h1 _).mpr ⟨hmem, hnotrel⟩, ?_⟩
      rw [if_pos (List.isPrefixOf_iff_prefix.mpr (List.prefix_append _ _))]
      rw [List.drop_left]
  · intro p c hp1 hp2
    rw [hres]
    constructor
    · intro hmem
      obtain ⟨x, hx, hgx⟩ := List.mem_map.mp hmem
      by_cases hbx : (trashDir ++ rel).isPrefixOf x.1 = true
      · rw [if_pos hbx] at hgx
        have hfst : rel ++ x.1.drop (trashDir ++ rel).length = p :=
          congrArg Prod.fst hgx
        rw [isPrefixOf_false_iff] at hp1
        exact absurd (hfst ▸ List.prefix_append rel (x.1.drop (trashDir ++ rel).length)) hp1
      · rw [if_neg hbx] at hgx
        rw [hgx] at hx
        exact ((h1 _).mp hx).1
    · intro hmem
      refine List.mem_map.mpr ⟨(p, c), (h1 _).mpr ⟨hmem, isPrefixOf_false_iff.mp hp1⟩, ?_⟩
      rw [if_neg (by rw [hp2]; exact fun h => by cases h)]

end InstallationManager

/-- A filesystem with only the live `lib/a.jar`. -/
def fsLive : Fs := [(["lib", "a.jar"], .fileData "OK")]

/-- The filesystem after `move_to_trash` of `lib/a.jar` from `fsLive`. -/
def fsMoved : Fs := [([".launcher.backup", "lib", "a.jar"], .fileData "OK")]

open InstallationManager in
/-- C5: for a relative path with a live entry and no trash entry, a
successful `move_to_trash` followed by `restore_trash` restores the
original filesystem exactly (so the live entry holds the original
content and `.launcher.backup/P` is gone); in general, when a trash
entry exists, `restore_trash` deletes any live version, moves the trash
subtree to the live position, clears the trash position, and leaves all
other entries untouched (stated for well-formed filesystems and paths
outside the trash directory). -/
theorem trash_roundtrip_and_restore (fs fs' : Fs) (rel : FsPath) :
    (existsPath fs rel = true → existsPath fs (trashDir ++ rel) = false →
      move_to_trash fs rel = .ok fs' →
      restore_trash fs' rel = fs)
    ∧ (WFfs fs → trashDir.isPrefixOf rel = false → rel ≠ [] →
        existsPath fs (trashDir ++ rel) = true →
        existsPath (restore_trash fs rel) (trashDir ++ rel) = false
        ∧ (∀ s c, ((rel ++ s, c) ∈ restore_trash fs rel
            ↔ ((trashDir ++ rel) ++ s, c) ∈ fs))
        ∧ (∀ p c, rel.isPrefixOf p = false →
            (trashDir ++ rel).isPrefixOf p = false →
            ((p, c) ∈ restore_trash fs rel ↔ (p, c) ∈ fs))) :=
  ⟨fun hex hbx hmv => restore_after_move fs fs' rel hex hbx hmv,
   fun hwf hpre hne hb => restore_trash_general fs rel hwf hpre hne hb⟩

/-- C5 witness: the concrete roundtrip on `lib/a.jar`, and the trash
clearing on a filesystem holding both a live and a trash version. -/
theorem trash_roundtrip_and_restore_witness :
    InstallationManager.restore_trash fsMoved ["lib", "a.jar"] = fsLive
    ∧ existsPath (InstallationManager.restore_trash fsTrashPair ["lib", "a.jar"])
        (trashDir ++ ["lib", "a.jar"]) = false :=
  ⟨(trash_roundtrip_and_restore fsLive fsMoved ["lib", "a.jar"]).1
      (by decide) (by decide) (by decide),
   ((trash_roundtrip_and_restore fsTrashPair fsMoved ["lib", "a.jar"]).2
      (by unfold WFfs; decide) (by decide) (by decide) (by decide)).1⟩

theorem charListLt_irrefl : ∀ (a : List Char), charListLt a a = false
  | [] => rfl
  | c :: cs => by
    simp only [charListLt, Nat.lt_irrefl, if_false]
    exact charListLt_irrefl cs

theorem charListLt_trans :
    ∀ (a b c : List Char), charListLt a b = true → charListLt b c = true →
      charListLt a c = true
  | [], [], _ => by intro hab _; simp [charListLt] at hab
  | [], _ :: _, [] => by intro _ hbc; simp [charListLt] at hbc
  | [], _ :: _, _ :: _ => by intro _ _; rfl
  | _ :: _, [], _ => by intro hab _; simp [charListLt] at hab
  | _ :: _, _ :: _, [] => by intro _ hbc; simp [charListLt] at hbc
  | a :: as, b :: bs, c :: cs => by
    intro hab hbc
    simp only [charListLt] at hab hbc ⊢
    split_ifs at hab hbc ⊢ <;>
      first
      | rfl
      | omega
      | exact charListLt_trans as bs cs hab hbc

theorem charListLt_asymm {a b : List Char}
    (hab : charListLt a b = true) (hba : charListLt b a = true) : False := by
  have h := charListLt_trans a b a hab hba
  rw [charListLt_irrefl] at h
  cases h

theorem charListLt_eq_of_not_lt :
    ∀ (a b : List Char), charListLt a b = false → charListLt b a = false →
      a = b
  | [], [] => by intro _ _; rfl
  | [], _ :: _ => by intro hab _; simp [charListLt] at hab
  | _ :: _, [] => by intro _ hba; simp [charListLt] at hba
  | a :: as, b :: bs => by
    intro hab hba
    simp only [charListLt] at hab hba
    by_cases h1 : a.toNat < b.toNat
    · rw [if_pos h1] at hab; cases hab
    · by_cases h2 : b.toNat < a.toNat
      · rw [if_pos h2] at hba; cases hba
      · rw [if_neg h1, if_neg h2] at hab
        rw [if_neg h2, if_neg h1] at hba
        have hnat : a.toNat = b.toNat := by omega
        have hchar : a = b := by
          have := congrArg Char.ofNat hnat
          rwa [Char.ofNat_toNat, Char.ofNat_toNat] at this
        rw [hchar, charListLt_eq_of_not_lt as bs hab hba]

theorem strLtB_trans {a b c : String} (hab : strLtB a b = true)
    (hbc : strLtB b c = true) : strLtB a c = true :=
  charListLt_trans a.toList b.toList c.toList hab hbc

theorem strLtB_asymm {a b : String} (hab : strLtB a b = true)
    (hba : strLtB b a = true) : False :=
  charListLt_asymm hab hba

theorem strLtB_eq_of_not_lt {a b : String} (hab : strLtB a b = false)
    (hba : strLtB b a = false) : a = b := by
  have h := charListLt_eq_of_not_lt a.toList b.toList hab hba
  cases a with
  | mk da =>
    cases b with
    | mk db =>
      simp only [String.toList] at h
      exact congrArg String.mk h

/-- Membership after a `BTreeMap` insertion. -/
theorem insertSorted_mem :
    ∀ (l : List (String × String)) (k v : String) (x : String × String),
      x ∈ insertSorted k v l → x = (k, v) ∨ x ∈ l
  | [], k, v, x => by
    intro h
    simp only [insertSorted, List.mem_singleton] at h
    exact Or.inl h
  | e :: rest, k, v, x => by
    intro h
    simp only [insertSorted] at h
    by_cases h1 : strLtB k e.1
    · rw [if_pos h1] at h
      rcases List.mem_cons.mp h with h2 | h2
      · exact Or.inl h2
      · exact Or.inr h2
    · rw [if_neg h1] at h
      by_cases h2 : k = e.1
      · rw [if_pos h2] at h
        rcases List.mem_cons.mp h with h3 | h3
        · exact Or.inl h3
        · exact Or.inr (List.mem_cons.mpr (Or.inr h3))
      · rw [if_neg h2] at h
        rcases List.mem_cons.mp h with h3 | h3
        · exact Or.inr (List.mem_cons.mpr (Or.inl h3))
        · rcases insertSorted_mem rest k v x h3 with h4 | h4
          · exact Or.inl h4
          · exact Or.inr (List.mem_cons.mpr (Or.inr h4))

/-- An insertion into a key-sorted association list stays sorted. -/
theorem insertSorted_sorted :
    ∀ (l : List (String × String)) (k v : String),
      l.Pairwise (fun x y => strLtB x.1 y.1 = true) →
      (insertSorted k v l).Pairwise (fun x y => strLtB x.1 y.1 = true)
  | [], k, v => by
    intro _
    simp [insertSorted]
  | e :: rest, k, v => by
    intro hs
    have hhead := (List.pairwise_cons.mp hs).1
    have htail := (List.pairwise_cons.mp hs).2
    simp only [insertSorted]
    by_cases h1 : strLtB k e.1
    · rw [if_pos h1]
      refine List.pairwise_cons.mpr ⟨?_, hs⟩
      intro x hx
      rcases List.mem_cons.mp hx with h2 | h2
      · rw [h2]; exact h1
      · exact strLtB_trans h1 (hhead x h2)
    · rw [if_neg h1]
      by_cases h2 : k = e.1
      · rw [if_pos h2]
        refine List.pairwise_cons.mpr ⟨?_, htail⟩
        intro x hx
        rw [h2]
        exact hhead x hx
      · rw [if_neg h2]
        refine List.pairwise_cons.mpr ⟨?_, insertSorted_sorted rest k v htail⟩
        intro x hx
        rcases insertSorted_mem rest k v x hx with h3 | h3
        · rw [h3]
          by_cases h4 : strLtB e.1 k
          · exact h4
          · exact absurd (strLtB_eq_of_not_lt (Bool.eq_false_iff.mpr h1)
              (Bool.eq_false_iff.mpr h4)) h2
        · exact hhead x h3

/-- Inserting a fresh key is a permutation of consing. -/
theorem insertSorted_perm :
    ∀ (l : List (String × String)) (k v : String),
      k ∉ l.map Prod.fst → (insertSorted k v l).Perm ((k, v) :: l)
  | [], k, v => by intro _; exact List.Perm.refl _
  | e :: rest, k, v => by
    intro hk
    have hke : k ≠ e.1 := by
      intro he
      exact hk (by rw [he]; exact List.mem_cons_self _ _)
    have hkr : k ∉ rest.map Prod.fst := by
      intro hmem
      exact hk (List.mem_cons.mpr (Or.inr hmem))
    simp only [insertSorted]
    by_cases h1 : strLtB k e.1
    · rw [if_pos h1]
    · rw [if_neg h1, if_neg hke]
      exact ((insertSorted_perm rest k v hkr).cons e).trans
        (List.Perm.swap (k, v) e rest)

/-- Folding `BTreeMap` insertions over key-distinct pairs builds a
sorted permutation of the input (plus the initial map). -/
theorem foldl_insertSorted_perm_sorted :
    ∀ (pairs m : List (String × String)),
      m.Pairwise (fun x y => strLtB x.1 y.1 = true) →
      (pairs.map Prod.fst ++ m.map Prod.fst).Nodup →
      (pairs.foldl (fun acc x => insertSorted x.1 x.2 acc) m).Perm (pairs ++ m)
      ∧ (pairs.foldl (fun acc x => insertSorted x.1 x.2 acc) m).Pairwise
          (fun x y => strLtB x.1 y.1 = true)
  | [], m => by
    intro hs _
    exact ⟨List.Perm.refl m, hs⟩
  | x :: rest, m => by
    intro hs hnd
    have hnd1 : ((x.1 :: rest.map Prod.fst) ++ m.map Prod.fst).Nodup := by
      simpa using hnd
    rw [List.cons_append, List.nodup_cons] at hnd1
    have hxnm : x.1 ∉ m.map Prod.fst :=
      fun hmem => hnd1.1 (List.mem_append.mpr (Or.inr hmem))
    have hinsp : (insertSorted x.1 x.2 m).Perm (x :: m) := by
      have := insertSorted_perm m x.1 x.2 hxnm
      simpa using this
    have hinss := insertSorted_sorted m x.1 x.2 hs
    have hndrec : (rest.map Prod.fst
        ++ (insertSorted x.1 x.2 m).map Prod.fst).Nodup := by
      have hp1 : (insertSorted x.1 x.2 m).map Prod.fst |>.Perm
          (x.1 :: m.map Prod.fst) := by
        simpa using hinsp.map Prod.fst
      have hp2 : (rest.map Prod.fst ++ (insertSorted x.1 x.2 m).map Prod.fst).Perm
          (x.1 :: (rest.map Prod.fst ++ m.map Prod.fst)) :=
        (List.Perm.append_left _ hp1).trans List.perm_middle
      exact hp2.symm.nodup (by simpa using hnd1)
    have hrec := foldl_insertSorted_perm_sorted rest (insertSorted x.1 x.2 m)
      hinss hndrec
    rw [List.foldl_cons]
    refine ⟨hrec.1.trans ?_, hrec.2⟩
    exact (List.Perm.append_left rest hinsp).trans List.perm_middle

/-- C7: the archive checksum validator computes the structural hash —
each walked non-directory entry contributes the digest of its contents,
or of its link target if it is a symlink; the `(relative path, digest)`
pairs end up ordered lexicographically by path regardless of walk order
(shown against any sorted arrangement of the pairs), serialized as
`path TAB digest LF`, and the concatenation is digested by a fresh
hasher; an archive with no entries hashes the empty stream. -/
theorem archive_hash_is_sorted_serialization (hashFn : String → String)
    (walk : List (String × FileData)) (l : List (String × String)) :
    ((walk.map Prod.fst).Nodup →
      (walk.map (fun e => (e.1, entryDigest hashFn e.2))).Perm l →
      l.Pairwise (fun x y => strLtB x.1 y.1 = true) →
      archiveHashOfWalk hashFn walk = hashFn (serializePairs l))
    ∧ archiveHashOfWalk hashFn [] = hashFn "" := by
  constructor
  · intro hnd hperm hsort
    set pairs := walk.map (fun e => (e.1, entryDigest hashFn e.2)) with hpairs
    have hbridge : walk.foldl
        (fun m e => insertSorted e.1 (entryDigest hashFn e.2) m) []
        = pairs.foldl (fun acc x => insertSorted x.1 x.2 acc) [] := by
      rw [hpairs, List.foldl_map]
    have hkeys : pairs.map Prod.fst = walk.map Prod.fst := by
      rw [hpairs, List.map_map]
      rfl
    have hnd' : (pairs.map Prod.fst
        ++ ([] : List (String × String)).map Prod.fst).Nodup := by
      simpa [hkeys] using hnd
    have hfold := foldl_insertSorted_perm_sorted pairs [] (by simp) hnd'
    have hperm2 : (pairs.foldl (fun acc x => insertSorted x.1 x.2 acc) []).Perm l := by
      refine hfold.1.trans ?_
      rw [List.append_nil]
      exact hperm
    haveI : IsAntisymm (String × String) (fun x y => strLtB x.1 y.1 = true) :=
      ⟨fun a b h1 h2 => (strLtB_asymm h1 h2).elim⟩
    have heq : pairs.foldl (fun acc x => insertSorted x.1 x.2 acc) [] = l :=
      List.eq_of_perm_of_sorted hperm2 hfold.2 hsort
    unfold archiveHashOfWalk
    rw [hbridge, heq]
  · rfl

/-- A two-entry archive walk delivered in non-sorted order, with a
symlink. -/
def walkFixture : List (String × FileData) :=
  [("b", .fileData "x"), ("a", .symlink "t")]

/-- C7 witness: the structural hash of the concrete walk equals the
digest of the sorted serialization, with the symlink hashed by its
target. -/
theorem archive_hash_is_sorted_serialization_witness :
    archiveHashOfWalk hashFixture walkFixture
      = hashFixture (serializePairs
          [("a", hashFixture "t"), ("b", hashFixture "x")]) :=
  (archive_hash_is_sorted_serialization hashFixture walkFixture
    [("a", hashFixture "t"), ("b", hashFixture "x")]).1
    (by decide) (by decide) (by decide)
